import Mathlib

/-!
Verification of the RDxClaw core runtime specification against a shallow
embedding of its Go source (package `knowledge`: BM25 index, chunking,
store persistence; package `swarm`: sub-agent lifecycle; package `api`:
webhook handler; package `tools`: knowledge tool argument handling).

Modelling conventions:
* Go `map` values are embedded as insertion-ordered association lists with
  overwrite-in-place semantics (`assocInsert`), since only lookups and sizes
  are observed by the code under verification.  Go's randomized map
  iteration order, where observable (the `scores` map in `Index.Search`),
  is modelled nondeterministically (see `SearchValid`).
* Go `float64` arithmetic is embedded as exact real arithmetic over `ℝ`;
  `math.Log` becomes `Real.log`.
* Go strings are Lean `String`s; `[]rune` conversion is `String.data`
  (code points); Go's byte-oriented `len` is `goByteLen` (UTF-8 length).
-/

namespace RDxClaw

/-! ## Package `knowledge`: constants (index.go lines 15-23) -/

/-- BM25 parameter `k1 = 1.2` (float constant modelled as the exact real). -/
noncomputable def k1 : ℝ := 1.2

/-- BM25 parameter `b = 0.75` (float constant modelled as the exact real). -/
noncomputable def bParam : ℝ := 0.75

/-- Chunking parameter `chunkSize = 1000` (characters). -/
def chunkSize : Nat := 1000

/-- Chunking parameter `chunkOverlap = 200` (characters). -/
def chunkOverlap : Nat := 200

/-! ## Tokenizer (index.go lines 200-205):
`strings.ToLower` then all matches of `[a-zA-Z0-9]+`. -/

/-- Matches Go's regexp character class `[a-zA-Z0-9]`. -/
def isAlnum (c : Char) : Bool :=
  (97 ≤ c.toNat && c.toNat ≤ 122) || (65 ≤ c.toNat && c.toNat ≤ 90) ||
    (48 ≤ c.toNat && c.toNat ≤ 57)

/-- Maximal runs of `[a-zA-Z0-9]` characters, in order: the semantics of
`regexp.FindAllString` with pattern `[a-zA-Z0-9]+`.  `cur` is the run under
construction, reversed. -/
def alnumRunsAux (cur : List Char) : List Char → List (List Char)
  | [] => if cur.isEmpty then [] else [cur.reverse]
  | c :: cs =>
    if isAlnum c then alnumRunsAux (c :: cur) cs
    else if cur.isEmpty then alnumRunsAux [] cs
    else cur.reverse :: alnumRunsAux [] cs

def alnumRuns (l : List Char) : List (List Char) :=
  alnumRunsAux [] l

/-- `tokenize` (index.go line 202): Unicode lowercase, then `[a-zA-Z0-9]+`
matches.  `strings.ToLower` is modelled by `Char.toLower`; the two agree on
every character that can produce an `[a-zA-Z0-9]` match relevant here, and
non-matching characters are dropped by the regex either way. -/
def tokenize (text : String) : List String :=
  (alnumRuns (text.data.map Char.toLower)).map String.mk

/-! ## Chunking (index.go lines 207-226) -/

/-- Go's byte-oriented `len(text)` for a string: total UTF-8 size. -/
def goByteLen (s : String) : Nat := (s.data.map Char.utf8Size).sum

/-- The chunking loop of `chunkText`, phrased on the remaining runes
(`rest = runes[i:]`): emit `rest[:size]`, stop after the chunk that
reaches the end, otherwise advance by `step` (in the source
`step = size - overlap`).  `fuel` bounds the iteration count; with
`0 < step` the loop runs at most `len(runes)` times, so the initial fuel
`runes.length` is never exhausted (the source loop does not terminate when
`step = 0`, which is unreachable for the package constants
`1000 - 200 = 800`). -/
def chunkLoop (size step : Nat) : Nat → List Char → List (List Char)
  | 0, _ => []
  | _ + 1, [] => []
  | fuel + 1, c :: cs =>
    let rest := c :: cs
    let chunk := rest.take size
    if rest.length ≤ size then [chunk]
    else chunk :: chunkLoop size step fuel (rest.drop step)

/-- `chunkText` (index.go lines 207-226).  The fast path compares the Go
byte length (`len(text)`) against `size`; the loop works on `[]rune`. -/
def chunkText (text : String) (size overlap : Nat) : List String :=
  if goByteLen text ≤ size then [text]
  else (chunkLoop size (size - overlap) text.data.length text.data).map String.mk

/-! ## Index data model (types.go, index.go lines 25-50).
`Document.Metadata` / `Chunk.Metadata` (`map[string]interface{}`) are
carried opaquely by the source and inspected by no claim; they are elided
from the embedding. -/

structure Document where
  id : String
  content : String
  deriving Repr, DecidableEq

structure Chunk where
  id : String
  documentId : String
  content : String
  index : Nat
  deriving Repr, DecidableEq

structure Posting where
  chunkId : String
  tf : Nat
  deriving Repr, DecidableEq

/-- Insertion-ordered association list standing for a Go `map`:
`assocInsert` overwrites in place or appends a new key. -/
def assocInsert {β : Type} (l : List (String × β)) (k : String) (v : β) :
    List (String × β) :=
  match l with
  | [] => [(k, v)]
  | (k', v') :: rest =>
    if k' == k then (k, v) :: rest else (k', v') :: assocInsert rest k v

/-- Go map lookup returning `none` when the key is absent. -/
def assocFind {β : Type} : List (String × β) → String → Option β
  | [], _ => none
  | (k', v) :: rest, k => if k' == k then some v else assocFind rest k

/-- Go map read with the type's zero value as default
(`m[k]` on a missing key). -/
def assocGetD {β : Type} (l : List (String × β)) (k : String) (d : β) : β :=
  (assocFind l k).getD d

/-- Go map membership test. -/
def assocHas {β : Type} (l : List (String × β)) (k : String) : Bool :=
  (assocFind l k).isSome

/-- `Index` (index.go lines 31-40).  `Docs`, `InvertedIdx` and `DocLengths`
are Go maps, embedded as association lists (keys are unique by
construction). -/
structure Index where
  name : String
  docs : List (String × Chunk)
  invertedIdx : List (String × List Posting)
  docLengths : List (String × Nat)
  docCount : Nat
  sumDocLen : Nat
  deriving Repr, DecidableEq

/-- `NewIndex` (index.go lines 42-50): no validation, cannot fail. -/
def NewIndex (name : String) : Index :=
  { name := name, docs := [], invertedIdx := [], docLengths := [],
    docCount := 0, sumDocLen := 0 }

/-- The Go constructor's behaviour lifted to explicit chunking parameters,
for stating the spec's construction-time-validation requirement: the
source `NewIndex` consults no parameters (chunk size and overlap are
package constants) and has no error return, so the lifted constructor
succeeds for every argument, including `size = overlap`. -/
def NewIndexChecked (name : String) (size overlap : Nat) : Except String Index :=
  let _ := size
  let _ := overlap
  Except.ok (NewIndex name)

/-- Term-frequency accumulation of `AddDocument` (index.go lines 78-81):
`termFreqs[token]++` over the token list. -/
def termFreqs (tokens : List String) : List (String × Nat) :=
  tokens.foldl (fun acc t => assocInsert acc t (assocGetD acc t 0 + 1)) []

/-- The body of `AddDocument`'s per-chunk loop iteration
(index.go lines 58-89): store the chunk, record its token count, bump the
totals, and append one posting per distinct term.  Iterating the Go
`termFreqs` map in an unspecified order only permutes which `InvertedIdx`
keys are touched first; each term's own posting list receives exactly one
append, so the association-list fold is observationally faithful. -/
def addChunk (idx : Index) (chunk : Chunk) : Index :=
  let tokens := tokenize chunk.content
  let docLen := tokens.length
  { idx with
    docs := assocInsert idx.docs chunk.id chunk
    docLengths := assocInsert idx.docLengths chunk.id docLen
    sumDocLen := idx.sumDocLen + docLen
    docCount := idx.docCount + 1
    invertedIdx :=
      (termFreqs tokens).foldl
        (fun inv tc =>
          assocInsert inv tc.1
            (assocGetD inv tc.1 [] ++ [{ chunkId := chunk.id, tf := tc.2 }]))
        idx.invertedIdx }

/-- Chunk construction in `AddDocument` (index.go lines 59-66):
`chunkID = <doc.ID>_chk_<i>`. -/
def mkChunk (doc : Document) (i : Nat) (content : String) : Chunk :=
  { id := doc.id ++ "_chk_" ++ toString i, documentId := doc.id,
    content := content, index := i }

/-- The chunks created for one document by `AddDocument`
(index.go lines 57-66): `chunkText` output, enumerated from index 0. -/
def docChunks (doc : Document) : List Chunk :=
  (chunkText doc.content chunkSize chunkOverlap).enum.map
    (fun p => mkChunk doc p.1 p.2)

/-- `Index.AddDocument` (index.go lines 53-93). -/
def AddDocument (idx : Index) (doc : Document) : Index :=
  (docChunks doc).foldl addChunk idx

/-! ## Search (index.go lines 96-155) -/

/-- `avgDocLen := float64(idx.SumDocLen) / float64(idx.DocCount)`
(index.go line 106). -/
noncomputable def avgDocLen (idx : Index) : ℝ :=
  (idx.sumDocLen : ℝ) / (idx.docCount : ℝ)

/-- The IDF of `Index.Search` (index.go line 118):
`log((N - n + 0.5)/(n + 0.5) + 1)` with `N = DocCount`,
`n = len(postings)`; the Go `int` difference `N - n` is a true integer
difference, modelled by subtraction in `ℝ`. -/
noncomputable def idf (idx : Index) (docFreq : Nat) : ℝ :=
  Real.log (((idx.docCount : ℝ) - (docFreq : ℝ) + 0.5) / ((docFreq : ℝ) + 0.5) + 1)

/-- One posting's contribution to `scores[chunkID]`
(index.go lines 120-131): `idf * (tf*(k1+1)) / (tf + k1*(1-b+b*dl/avgdl))`
with the chunk's cached `DocLengths` entry as `dl`. -/
noncomputable def postingContribution (idx : Index) (docFreq : Nat) (p : Posting) : ℝ :=
  let tf : ℝ := (p.tf : ℝ)
  let docLen : ℝ := (assocGetD idx.docLengths p.chunkId 0 : Nat)
  let numerator := tf * (k1 + 1)
  let denominator := tf + k1 * (1 - bParam + bParam * (docLen / avgDocLen idx))
  idf idx docFreq * (numerator / denominator)

/-- The inner-loop body of `Index.Search` (index.go lines 120-131):
`scores[posting.ChunkID] += idf * (numerator / denominator)`. -/
noncomputable def postingStep (idx : Index) (docFreq : Nat)
    (sc : List (String × ℝ)) (p : Posting) : List (String × ℝ) :=
  assocInsert sc p.chunkId
    (assocGetD sc p.chunkId 0 + postingContribution idx docFreq p)

/-- The outer-loop body of `Index.Search` (index.go lines 108-132): look
up the term's posting list, skip when empty (`continue`), otherwise fold
the postings into the `scores` map. -/
noncomputable def scoreStep (idx : Index) (sc : List (String × ℝ))
    (term : String) : List (String × ℝ) :=
  let postings := assocGetD idx.invertedIdx term []
  if postings.length = 0 then sc
  else postings.foldl (postingStep idx postings.length) sc

/-- The `scores` map accumulation of `Index.Search`
(index.go lines 104-132). -/
noncomputable def searchScores (idx : Index) (queryTokens : List String) :
    List (String × ℝ) :=
  queryTokens.foldl (scoreStep idx) []

/-- Key-set analogue of `postingStep`: record the chunk id. -/
def keyPostingStep (ks : List String) (p : Posting) : List String :=
  if ks.contains p.chunkId then ks else ks ++ [p.chunkId]

/-- Key-set analogue of `scoreStep`. -/
def keyStep (idx : Index) (ks : List String) (term : String) : List String :=
  let postings := assocGetD idx.invertedIdx term []
  if postings.length = 0 then ks
  else postings.foldl keyPostingStep ks

/-- The key set of the `scores` map, in first-contribution order: a
computable companion of `searchScores` (the `ℝ` payloads do not influence
which keys exist; `scoreKeys_eq_map_fst_searchScores` below makes that
precise). -/
def scoreKeys (idx : Index) (queryTokens : List String) : List String :=
  queryTokens.foldl (keyStep idx) []

/-- `SearchResult` (types.go lines 27-32; the `Chunk` payload is looked up
from `Docs`, a missing key yielding Go's zero `Chunk`). -/
structure SearchResult where
  chunk : Chunk
  score : ℝ
  documentId : String
  source : String

/-- Result construction of `Index.Search` (index.go lines 136-144). -/
noncomputable def mkSearchResult (idx : Index) (cid : String) (score : ℝ) :
    SearchResult :=
  let chunk := assocGetD idx.docs cid { id := "", documentId := "", content := "", index := 0 }
  { chunk := chunk, score := score, documentId := chunk.documentId,
    source := "chunk:" ++ cid }

/-- The possible outputs of `Index.Search(query, limit)` for a
non-negative `limit` (index.go lines 96-155).  Two sources of
nondeterminism are abstracted together: the randomized iteration order of
the Go `scores` map (lines 136-144) and the unstable `sort.Slice`
(lines 146-148).  Jointly they guarantee exactly: the emitted list is some
permutation of the score map sorted so scores are non-increasing, then
truncated to `limit` entries (`results = results[:limit]`, line 151). -/
noncomputable def SearchValid (idx : Index) (query : String) (limit : Nat)
    (out : List SearchResult) : Prop :=
  if idx.docCount = 0 then out = []
  else
    ∃ pairs : List (String × ℝ),
      pairs.Perm (searchScores idx (tokenize query)) ∧
      List.Chain' (fun a b => b.2 ≤ a.2) pairs ∧
      out = (pairs.map (fun p => mkSearchResult idx p.1 p.2)).take limit

/-- The truncation step of `Index.Search` with a possibly negative caller
`limit` (index.go lines 150-152): `if len(results) > limit { results =
results[:limit] }`.  A Go slice expression `results[:limit]` with
`limit < 0` panics at run time; `true` marks that panic.  The number of
results is the number of keys of the `scores` map. -/
def searchPanics (idx : Index) (query : String) (limit : Int) : Bool :=
  if idx.docCount = 0 then false
  else
    let n := (scoreKeys idx (tokenize query)).length
    if limit < (n : Int) then decide (limit < 0) else false

/-- The `limit` extraction of `KnowledgeTool.handleSearch`
(knowledge.go lines 104-107): default 5, overridden by any numeric
model-supplied `limit` argument (`limit = int(l)`). -/
def handleSearchLimit (arg : Option Int) : Int :=
  match arg with
  | some l => l
  | none => 5

/-- The BM25 scoring formula as written in the specification (§4.5):
`score(chunk, query) = Σ_{term ∈ query} idf(term)·(tf·(k1+1))/(tf +
k1·(1 − b + b·dl/avgdl))` with `idf(term) = ln((N − n + 0.5)/(n + 0.5) + 1)`,
`N = doc_count`, `n = |postings(term)|`, `dl` the chunk's token count,
`avgdl = sum_doc_len / N`; query terms with no posting entry for the chunk
contribute zero.  Stated independently of `searchScores` for the
refinement theorem of claim C3. -/
noncomputable def specBM25Score (idx : Index) (query : String) (cid : String) : ℝ :=
  ((tokenize query).map (fun term =>
    let postings := assocGetD idx.invertedIdx term []
    let n : ℝ := (postings.length : ℝ)
    let bigN : ℝ := (idx.docCount : ℝ)
    let idfTerm := Real.log ((bigN - n + 0.5) / (n + 0.5) + 1)
    match postings.find? (fun p => p.chunkId == cid) with
    | none => 0
    | some p =>
      let tf : ℝ := (p.tf : ℝ)
      let dl : ℝ := ((assocGetD idx.docLengths cid 0 : Nat) : ℝ)
      let avgdl : ℝ := (idx.sumDocLen : ℝ) / (idx.docCount : ℝ)
      idfTerm * (tf * (k1 + 1)) / (tf + k1 * (1 - bParam + bParam * (dl / avgdl))))).sum

/-! ## Package `knowledge`, store.go: persistence model (C7).
The on-disk file `<name>.index.json` is modelled by its observable state:
absent, present-but-unreadable-or-invalid, or a valid serialized index.
`os.Create`/`Encode` in `Index.Save` truncate and rewrite the file; disk
write errors are outside the model. -/

inductive FileState where
  | absent : FileState
  | invalid : FileState
  | valid : Index → FileState
  deriving Repr, DecidableEq

/-- The store's observable state: the in-memory collection cache
(`s.indexes`) and the base directory's files keyed by collection name. -/
structure StoreState where
  cache : List (String × Index)
  disk : List (String × FileState)
  deriving Repr, DecidableEq

/-- ASCII whitespace, the relevant fragment of Go's `unicode.IsSpace`
(collection names containing exotic Unicode spaces are not observed by
any claim). -/
def goIsSpace (c : Char) : Bool :=
  c = ' ' || c = '\t' || c = '\n' || c = '\r' || c = '\x0b' || c = '\x0c'

/-- `strings.TrimSpace`. -/
def goTrimSpace (s : String) : String :=
  String.mk (((s.data.dropWhile goIsSpace).reverse.dropWhile goIsSpace).reverse)

/-- `strings.ToLower` (character-wise; see the `tokenize` comment). -/
def goToLowerStr (s : String) : String :=
  String.mk (s.data.map Char.toLower)

/-- The collection-name normalization of `Store.GetIndex`
(store.go line 36): `strings.ToLower(strings.TrimSpace(name))`. -/
def normName (name : String) : String :=
  goToLowerStr (goTrimSpace name)

/-- `LoadIndex` (index.go lines 179-196): a missing file yields a fresh
empty index without error; an unreadable or schema-invalid file yields an
error; a valid file decodes and gets its `Name` forced. -/
def LoadIndex (name : String) (disk : List (String × FileState)) :
    Except Unit Index :=
  match assocGetD disk name FileState.absent with
  | FileState.absent => Except.ok (NewIndex name)
  | FileState.invalid => Except.error ()
  | FileState.valid idx => Except.ok { idx with name := name }

/-- `Index.Save` (index.go lines 158-176): re-serialize the whole index
over `<dir>/<name>.index.json`. -/
def SaveIndex (disk : List (String × FileState)) (idx : Index) :
    List (String × FileState) :=
  assocInsert disk idx.name (FileState.valid idx)

/-- `Store.GetIndex` (store.go lines 31-63): normalize the name, consult
the cache, else try `LoadIndex`; on load error fall back to a fresh
`NewIndex` and save it immediately ("Save immediately to ensure file
exists"). -/
def GetIndex (s : StoreState) (name : String) :
    Except String (Index × StoreState) :=
  let name := normName name
  if name = "" then Except.error "index name cannot be empty"
  else
    match assocFind s.cache name with
    | some idx => Except.ok (idx, s)
    | none =>
      match LoadIndex name s.disk with
      | Except.ok idx =>
        Except.ok (idx, { s with cache := assocInsert s.cache name idx })
      | Except.error _ =>
        let idx := NewIndex name
        Except.ok (idx, { cache := assocInsert s.cache name idx,
                          disk := SaveIndex s.disk idx })

/-! ## Package `swarm`, manager.go: sub-agent lifecycle (C5).
One task's mutable record, narrowed to the fields the claim observes.
Each lock-guarded mutation of the source is one atomic step; steps of
`KillAgent` and of the concurrently running `RunTask` may interleave. -/

structure TaskState where
  status : String
  cancelInvoked : Bool
  finishedSet : Bool
  deriving Repr, DecidableEq

/-- Task creation in `Manager.Spawn` (manager.go lines 74-84):
`Status: "running"`. -/
def spawnTask : TaskState :=
  { status := "running", cancelInvoked := false, finishedSet := false }

/-- `Manager.KillAgent` on a present task (manager.go lines 216-224):
error unless the status is `"running"`, otherwise invoke the cancel
handle and set `"cancelled"`. -/
def KillAgent (t : TaskState) : Except String TaskState :=
  if t.status ≠ "running" then
    Except.error ("agent is not running (status: " ++ t.status ++ ")")
  else
    Except.ok { t with cancelInvoked := true, status := "cancelled" }

/-- The status-update block of `Manager.RunTask` after the tool loop
returns (manager.go lines 157-169): on error, `"failed"`, overridden to
`"cancelled"` when the context was cancelled; on success, `"completed"` —
unconditionally, whatever the current status. -/
def runTaskFinalize (t : TaskState) (errOccurred ctxCancelled : Bool) :
    TaskState :=
  if errOccurred then
    if ctxCancelled then { t with status := "cancelled" }
    else { t with status := "failed" }
  else { t with status := "completed" }

/-- The deferred block of `Manager.RunTask` (manager.go lines 114-121):
set `Finished` and promote a still-`"running"` status to `"completed"`. -/
def runTaskDeferred (t : TaskState) : TaskState :=
  let t := { t with finishedSet := true }
  if t.status = "running" then { t with status := "completed" } else t

/-! ## Package `api`, server.go: webhook handler (C8). -/

structure InboundMessage where
  channel : String
  senderId : String
  chatId : String
  content : String
  sessionKey : String
  deriving Repr, DecidableEq

/-- `listHasPre p l` is Go's byte-prefix test `strings.HasPrefix`,
on code points (a UTF-8 byte prefix of a valid string is a code-point
prefix). -/
def listHasPre : List Char → List Char → Bool
  | [], _ => true
  | _ :: _, [] => false
  | p :: ps, c :: cs => p == c && listHasPre ps cs

/-- `strings.TrimPrefix` (server.go line 264). -/
def goTrimPrefix (s pre : String) : String :=
  if listHasPre pre.data s.data then String.mk (s.data.drop pre.data.length)
  else s

/-- Go `encoding/json` string escaping, as far as the claims observe it:
quote, backslash, the common control escapes, other control characters as
`\u00XX`, and the HTML-safe escapes for `<`, `>`, `&`. -/
def jsonEscapeChar (c : Char) : List Char :=
  if c = '"' then ['\\', '"']
  else if c = '\\' then ['\\', '\\']
  else if c = '\n' then ['\\', 'n']
  else if c = '\r' then ['\\', 'r']
  else if c = '\t' then ['\\', 't']
  else if c = '<' then ['\\', 'u', '0', '0', '3', 'c']
  else if c = '>' then ['\\', 'u', '0', '0', '3', 'e']
  else if c = '&' then ['\\', 'u', '0', '0', '2', '6']
  else if c.toNat < 32 then
    ['\\', 'u', '0', '0', hexDigit (c.toNat / 16), hexDigit (c.toNat % 16)]
  else [c]
where
  hexDigit (n : Nat) : Char :=
    if n < 10 then Char.ofNat (48 + n) else Char.ofNat (87 + n)

/-- Whether `jsonEscapeChar` rewrites the character. -/
def jsonNeedsEscape (c : Char) : Bool :=
  c = '"' || c = '\\' || c.toNat < 32 || c = '<' || c = '>' || c = '&'

def jsonEscape (s : String) : String :=
  String.mk ((s.data.map jsonEscapeChar).flatten)

/-- `WebhookEvent` (api types document inside `pkg/api/web/js/app.js`,
lines 294-301; constructed in server.go lines 285-291):
`Path string json:"path"`, `Headers map[string]string
json:"headers,omitempty"`, `Body map[string]interface{}
json:"body,omitempty"`, `RawBody string json:"raw_body,omitempty"`,
`Timestamp int64 json:"timestamp"`.  `body = none` models a `Body` map
with no entries — the `nil` map left by a failed `json.Unmarshal` or an
empty object — which `omitempty` omits; `some s` is a non-empty parsed
object rendered back to JSON text. -/
structure WebhookEvent where
  path : String
  headers : List (String × String)
  body : Option String
  rawBody : String
  timestamp : Int
  deriving Repr, DecidableEq

/-- `json.Marshal` of a `WebhookEvent`, following the struct's field
order and tags (app.js types document, lines 294-301): `path` and
`timestamp` are always emitted; `headers`, `body` and `raw_body` carry
`omitempty`, so an entry-less `Headers`/`Body` map and an empty `RawBody`
string are omitted from the output. -/
def marshalWebhookEvent (e : WebhookEvent) : String :=
  "\x7b\"path\":\"" ++ jsonEscape e.path ++ "\"" ++
    (if e.headers.isEmpty then ""
     else ",\"headers\":\x7b" ++
       String.intercalate ","
         (e.headers.map (fun kv =>
           "\"" ++ jsonEscape kv.1 ++ "\":\"" ++ jsonEscape kv.2 ++ "\"")) ++
       "\x7d") ++
    (match e.body with | none => "" | some s => ",\"body\":" ++ s) ++
    (if e.rawBody = "" then ""
     else ",\"raw_body\":\"" ++ jsonEscape e.rawBody ++ "\"") ++
    ",\"timestamp\":" ++ toString e.timestamp ++ "\x7d"

structure WebhookResponse where
  status : Nat
  received : Bool
  path : String
  deriving Repr, DecidableEq

structure WebhookOutcome where
  published : List InboundMessage
  response : WebhookResponse
  deriving Repr, DecidableEq

/-- `Server.handleWebhook` (server.go lines 262-309) after the request
body was read: trim the route prefix, build the `WebhookEvent` (ignoring
any `json.Unmarshal` error), publish exactly one inbound message on
channel `webhook`, and answer HTTP 200 with `{received, path}`.
`parsedBody` carries the outcome of `json.Unmarshal` (`none` when the body
is not parseable JSON). -/
def handleWebhook (urlPath : String) (body : String) (parsedBody : Option String)
    (headers : List (String × String)) (ts : Int) : WebhookOutcome :=
  let webhookPath := goTrimPrefix urlPath "/v1/webhooks"
  let event : WebhookEvent :=
    { path := webhookPath, headers := headers, body := parsedBody,
      rawBody := body, timestamp := ts }
  let msg : InboundMessage :=
    { channel := "webhook", senderId := "webhook", chatId := webhookPath,
      content := "[Webhook received on " ++ webhookPath ++ "]\n\n" ++
        marshalWebhookEvent event,
      sessionKey := "webhook-" ++ webhookPath }
  { published := [msg],
    response := { status := 200, received := true, path := webhookPath } }

/-! ## Derived notions used in claim statements -/

/-- `Σ C.doc_lengths`: the sum of the stored per-chunk token counts. -/
def sumDocLengths (idx : Index) : Nat :=
  (idx.docLengths.map Prod.snd).sum

/-- The chunk ids `<doc.ID>_chk_<i>` one `AddDocument` call generates. -/
def docChunkIds (doc : Document) : List String :=
  (docChunks doc).map Chunk.id

/-- All chunk ids generated by a sequence of `AddDocument` calls. -/
def allChunkIds (docs : List Document) : List String :=
  (docs.map docChunkIds).flatten

/-- The spec's index invariant (§3/§8): `doc_count = |docs|` and
`sum_doc_len = Σ doc_lengths`. -/
def IndexInvariant (idx : Index) : Prop :=
  idx.docCount = idx.docs.length ∧ idx.sumDocLen = sumDocLengths idx

/-- A chunk's insertion position in the index: its position among the
`docs` keys (`assocInsert` appends new keys in insertion order and keeps
the position of overwritten ones). -/
def insPos (idx : Index) (cid : String) : Nat :=
  (idx.docs.map Prod.fst).indexOf cid

/-- The tie-breaking property the spec claims of `Index.Search` output:
among equal scores, earlier-inserted chunks come first. -/
def tiesRespectInsertion (idx : Index) (out : List SearchResult) : Prop :=
  ∀ i j (hi : i < out.length) (hj : j < out.length), i < j →
    (out.get ⟨i, hi⟩).score = (out.get ⟨j, hj⟩).score →
    insPos idx (out.get ⟨i, hi⟩).chunk.id < insPos idx (out.get ⟨j, hj⟩).chunk.id

/-! ## Concrete instances used by witnesses and counterexamples -/

/-- The document `{id: "a", content: "x"}`. -/
def exDocA : Document := { id := "a", content := "x" }

/-- The document `{id: "b", content: "x"}`. -/
def exDocB : Document := { id := "b", content := "x" }

/-- A collection after adding `exDocA` once. -/
def exIdx1 : Index := AddDocument (NewIndex "notes") exDocA

/-- A collection after adding `exDocA` and then `exDocB`. -/
def exIdx2 : Index := AddDocument exIdx1 exDocB

/-- A collection after adding the same document `exDocA` twice. -/
def exIdxDup : Index := AddDocument exIdx1 exDocA

/-- The accumulated score of chunk `a_chk_0` in `exIdx2` for query `"x"`. -/
noncomputable def exScoreA : ℝ :=
  assocGetD (searchScores exIdx2 (tokenize "x")) "a_chk_0" 0

/-- The accumulated score of chunk `b_chk_0` in `exIdx2` for query `"x"`. -/
noncomputable def exScoreB : ℝ :=
  assocGetD (searchScores exIdx2 (tokenize "x")) "b_chk_0" 0

/-- The task state `KillAgent` leaves behind when it succeeds. -/
def killedTask : TaskState :=
  { status := "cancelled", cancelInvoked := true, finishedSet := false }

/-! ## Association-list lemmas (shared helpers) -/

theorem assocFind_insert_self {β : Type} (l : List (String × β)) (k : String) (v : β) :
    assocFind (assocInsert l k v) k = some v := by
  induction l with
  | nil => simp [assocInsert, assocFind]
  | cons p rest ih =>
    cases p with
    | mk k₀ v₀ =>
      by_cases h₀ : k₀ = k
      · simp [assocInsert, assocFind, h₀]
      · simp [assocInsert, assocFind, h₀, ih]

theorem assocFind_insert_ne {β : Type} (l : List (String × β)) (k k' : String) (v : β)
    (h : k' ≠ k) : assocFind (assocInsert l k v) k' = assocFind l k' := by
  induction l with
  | nil => simp [assocInsert, assocFind, Ne.symm h]
  | cons p rest ih =>
    cases p with
    | mk k₀ v₀ =>
      by_cases h₀ : k₀ = k
      · subst h₀
        simp [assocInsert, assocFind, Ne.symm h]
      · by_cases h₁ : k₀ = k'
        · simp [assocInsert, assocFind, h₀, h₁, h]
        · simp [assocInsert, assocFind, h₀, h₁, ih]

theorem assocHas_insert {β : Type} (l : List (String × β)) (k k' : String) (v : β) :
    assocHas (assocInsert l k v) k' = (assocHas l k' || k' == k) := by
  by_cases h : k' = k
  · subst h
    simp [assocHas, assocFind_insert_self]
  · simp [assocHas, assocFind_insert_ne l k k' v h, h]

theorem assocInsert_of_not_has {β : Type} (l : List (String × β)) (k : String) (v : β)
    (h : assocHas l k = false) : assocInsert l k v = l ++ [(k, v)] := by
  induction l with
  | nil => simp [assocInsert]
  | cons p rest ih =>
    cases p with
    | mk k₀ v₀ =>
      by_cases h₀ : k₀ = k
      · subst h₀
        simp [assocHas, assocFind] at h
      · simp only [assocHas, assocFind, beq_iff_eq, if_neg h₀] at h
        simp [assocInsert, h₀, ih (by simpa [assocHas] using h)]

theorem assocInsert_length_of_has {β : Type} (l : List (String × β)) (k : String) (v : β)
    (h : assocHas l k = true) : (assocInsert l k v).length = l.length := by
  induction l with
  | nil => simp [assocHas, assocFind] at h
  | cons p rest ih =>
    cases p with
    | mk k₀ v₀ =>
      by_cases h₀ : k₀ = k
      · simp [assocInsert, h₀]
      · simp only [assocHas, assocFind, beq_iff_eq, if_neg h₀] at h
        simp [assocInsert, h₀, ih (by simpa [assocHas] using h)]

theorem assocHas_iff_mem_keys {β : Type} (l : List (String × β)) (k : String) :
    assocHas l k = true ↔ k ∈ l.map Prod.fst := by
  induction l with
  | nil => simp [assocHas, assocFind]
  | cons p rest ih =>
    cases p with
    | mk k₀ v₀ =>
      by_cases h₀ : k₀ = k
      · simp [assocHas, assocFind, h₀]
      · simp only [assocHas, assocFind, beq_iff_eq, if_neg h₀]
        simpa [assocHas, h₀, Ne.symm h₀] using ih

/-! ## Fold lemmas about `addChunk` (shared helpers) -/

theorem foldl_addChunk_docCount (cs : List Chunk) (idx : Index) :
    (cs.foldl addChunk idx).docCount = idx.docCount + cs.length := by
  induction cs generalizing idx with
  | nil => simp
  | cons c rest ih =>
    simp only [List.foldl_cons, ih, List.length_cons]
    simp [addChunk]
    omega

theorem foldl_addChunk_sumDocLen (cs : List Chunk) (idx : Index) :
    (cs.foldl addChunk idx).sumDocLen =
      idx.sumDocLen + (cs.map (fun c => (tokenize c.content).length)).sum := by
  induction cs generalizing idx with
  | nil => simp
  | cons c rest ih =>
    simp only [List.foldl_cons, ih, List.map_cons, List.sum_cons]
    simp [addChunk]
    omega

theorem assocHas_foldl_addChunk_mono (cs : List Chunk) (idx : Index) (k : String)
    (h : assocHas idx.docs k = true) :
    assocHas ((cs.foldl addChunk idx).docs) k = true := by
  induction cs generalizing idx with
  | nil => exact h
  | cons c rest ih =>
    refine ih (addChunk idx c) ?_
    show assocHas (assocInsert idx.docs c.id c) k = true
    rw [assocHas_insert, h, Bool.true_or]

theorem assocHas_docs_of_mem (cs : List Chunk) (idx : Index) (c : Chunk)
    (hc : c ∈ cs) : assocHas ((cs.foldl addChunk idx).docs) c.id = true := by
  induction cs generalizing idx with
  | nil => cases hc
  | cons c₀ rest ih =>
    rcases List.mem_cons.mp hc with h | h
    · subst h
      refine assocHas_foldl_addChunk_mono rest (addChunk idx c) c.id ?_
      show assocHas (assocInsert idx.docs c.id c) c.id = true
      rw [assocHas_insert]
      simp
    · exact ih (addChunk idx c₀) h

theorem foldl_addChunk_docs_length_of_present (cs : List Chunk) (idx : Index)
    (h : ∀ c ∈ cs, assocHas idx.docs c.id = true) :
    (cs.foldl addChunk idx).docs.length = idx.docs.length := by
  induction cs generalizing idx with
  | nil => rfl
  | cons c rest ih =>
    have hc : assocHas idx.docs c.id = true := h c (List.mem_cons_self c rest)
    have hlen : (addChunk idx c).docs.length = idx.docs.length := by
      show (assocInsert idx.docs c.id c).length = idx.docs.length
      exact assocInsert_length_of_has idx.docs c.id c hc
    have hrest : ∀ c' ∈ rest, assocHas (addChunk idx c).docs c'.id = true := by
      intro c' hc'
      show assocHas (assocInsert idx.docs c.id c) c'.id = true
      rw [assocHas_insert, h c' (List.mem_cons_of_mem c hc'), Bool.true_or]
    simp only [List.foldl_cons, ih (addChunk idx c) hrest, hlen]

/-! ## Invariant preservation for C1 -/

theorem addChunk_append_of_fresh (idx : Index) (c : Chunk)
    (hkeys : idx.docs.map Prod.fst = idx.docLengths.map Prod.fst)
    (hfresh : assocHas idx.docs c.id = false) :
    (addChunk idx c).docs = idx.docs ++ [(c.id, c)] ∧
    (addChunk idx c).docLengths =
      idx.docLengths ++ [(c.id, (tokenize c.content).length)] := by
  have hfreshL : assocHas idx.docLengths c.id = false := by
    rw [Bool.eq_false_iff]
    intro hmem
    rw [assocHas_iff_mem_keys, ← hkeys, ← assocHas_iff_mem_keys] at hmem
    rw [hmem] at hfresh
    cases hfresh
  constructor
  · exact assocInsert_of_not_has idx.docs c.id c hfresh
  · exact assocInsert_of_not_has idx.docLengths c.id _ hfreshL

theorem foldl_addChunk_invariant (cs : List Chunk) (idx : Index)
    (hkeys : idx.docs.map Prod.fst = idx.docLengths.map Prod.fst)
    (hinv : IndexInvariant idx)
    (hfresh : ∀ c ∈ cs, assocHas idx.docs c.id = false)
    (hnodup : (cs.map Chunk.id).Nodup) :
    IndexInvariant (cs.foldl addChunk idx) ∧
    (cs.foldl addChunk idx).docs.map Prod.fst =
      idx.docs.map Prod.fst ++ cs.map Chunk.id ∧
    (cs.foldl addChunk idx).docs.map Prod.fst =
      (cs.foldl addChunk idx).docLengths.map Prod.fst := by
  induction cs generalizing idx with
  | nil => exact ⟨hinv, by simp, hkeys⟩
  | cons c rest ih =>
    have hc : assocHas idx.docs c.id = false := hfresh c (List.mem_cons_self c rest)
    obtain ⟨hdocs, hlens⟩ := addChunk_append_of_fresh idx c hkeys hc
    have hkeys' : (addChunk idx c).docs.map Prod.fst =
        (addChunk idx c).docLengths.map Prod.fst := by
      rw [hdocs, hlens, List.map_append, List.map_append, hkeys]
      rfl
    have hinv' : IndexInvariant (addChunk idx c) := by
      obtain ⟨h1, h2⟩ := hinv
      constructor
      · show idx.docCount + 1 = (addChunk idx c).docs.length
        rw [hdocs, List.length_append, h1]
        rfl
      · show idx.sumDocLen + (tokenize c.content).length = sumDocLengths (addChunk idx c)
        unfold sumDocLengths
        rw [hlens, List.map_append, List.sum_append, h2]
        rfl
    have hnodup' : (rest.map Chunk.id).Nodup := (List.nodup_cons.mp hnodup).2
    have hcid : c.id ∉ rest.map Chunk.id := (List.nodup_cons.mp hnodup).1
    have hfresh' : ∀ c' ∈ rest, assocHas (addChunk idx c).docs c'.id = false := by
      intro c' hc'
      show assocHas (assocInsert idx.docs c.id c) c'.id = false
      rw [assocHas_insert, hfresh c' (List.mem_cons_of_mem c hc'), Bool.false_or]
      rw [beq_eq_false_iff_ne]
      intro hEq
      exact hcid (hEq ▸ List.mem_map_of_mem Chunk.id hc')
    obtain ⟨ih1, ih2, ih3⟩ := ih (addChunk idx c) hkeys' hinv' hfresh' hnodup'
    refine ⟨ih1, ?_, ih3⟩
    rw [List.foldl_cons, ih2, hdocs, List.map_append, List.append_assoc]
    rfl

theorem foldl_AddDocument_invariant (ds : List Document) (idx : Index)
    (hkeys : idx.docs.map Prod.fst = idx.docLengths.map Prod.fst)
    (hinv : IndexInvariant idx)
    (hnodup : (idx.docs.map Prod.fst ++ allChunkIds ds).Nodup) :
    IndexInvariant (ds.foldl AddDocument idx) ∧
    (ds.foldl AddDocument idx).docs.map Prod.fst =
      idx.docs.map Prod.fst ++ allChunkIds ds ∧
    (ds.foldl AddDocument idx).docs.map Prod.fst =
      (ds.foldl AddDocument idx).docLengths.map Prod.fst := by
  induction ds generalizing idx with
  | nil => exact ⟨hinv, by simp [allChunkIds], hkeys⟩
  | cons d rest ih =>
    have hsplit : allChunkIds (d :: rest) = docChunkIds d ++ allChunkIds rest := by
      simp [allChunkIds]
    rw [hsplit] at hnodup
    have hnodup' := hnodup
    rw [← List.append_assoc] at hnodup'
    have hpieces := List.nodup_append.mp hnodup
    have hmid : (docChunkIds d).Nodup := (List.nodup_append.mp hpieces.2.1).1
    have hdisj : ∀ a ∈ idx.docs.map Prod.fst, a ∉ docChunkIds d ++ allChunkIds rest :=
      fun _ ha hb => hpieces.2.2 ha hb
    have hfreshd : ∀ c ∈ docChunks d, assocHas idx.docs c.id = false := by
      intro c hc
      rw [Bool.eq_false_iff]
      intro hmem
      rw [assocHas_iff_mem_keys] at hmem
      exact hdisj c.id hmem
        (List.mem_append_left _ (List.mem_map_of_mem Chunk.id hc))
    obtain ⟨hi1, hi2, hi3⟩ :=
      foldl_addChunk_invariant (docChunks d) idx hkeys hinv hfreshd hmid
    have hkeysd : (AddDocument idx d).docs.map Prod.fst =
        idx.docs.map Prod.fst ++ docChunkIds d := hi2
    have hnodupRest : ((AddDocument idx d).docs.map Prod.fst ++ allChunkIds rest).Nodup := by
      rw [hkeysd, List.append_assoc]
      exact hnodup
    obtain ⟨hr1, hr2, hr3⟩ := ih (AddDocument idx d) hi3 hi1 hnodupRest
    refine ⟨hr1, ?_, hr3⟩
    rw [List.foldl_cons, hr2, hkeysd, List.append_assoc, hsplit]

/-! ## Claim theorems -/

/-- C1 counterexample: the claim says `doc_count == |docs|` and
`sum_doc_len == Σ doc_lengths` hold after every `AddDocument` sequence
with arbitrary caller-supplied IDs.  After adding `{id:"a", content:"x"}`
twice (an arbitrary caller-supplied duplicate ID), `doc_count = 2` but
`|docs| = 1` and `sum_doc_len = 2` but `Σ doc_lengths = 1`. -/
theorem c1_duplicate_ids_break_invariant : ¬ IndexInvariant exIdxDup := by
  intro h
  have := h.1
  revert this
  decide

/-- C1 amended: for every collection index built by a sequence of
`AddDocument` calls whose generated chunk ids are pairwise distinct (as
when all document IDs are distinct — reusing a document ID makes the
overwritten chunks break the equalities), after each call the index
satisfies `doc_count == |docs|` and `sum_doc_len == Σ doc_lengths`
(quantifying over all such sequences covers every intermediate state). -/
theorem c1_invariant_with_fresh_chunk_ids (name : String) (ds : List Document)
    (hnodup : (allChunkIds ds).Nodup) :
    IndexInvariant (ds.foldl AddDocument (NewIndex name)) := by
  have h := foldl_AddDocument_invariant ds (NewIndex name) rfl ⟨rfl, rfl⟩
    (by simpa [NewIndex] using hnodup)
  exact h.1

/-- C1 amended, witness: two distinct documents added in sequence satisfy
the freshness hypothesis and hence the invariant. -/
theorem c1_invariant_with_fresh_chunk_ids_witness :
    (allChunkIds [exDocA, exDocB]).Nodup ∧
    IndexInvariant ([exDocA, exDocB].foldl AddDocument (NewIndex "notes")) := by
  exact ⟨by decide, c1_invariant_with_fresh_chunk_ids "notes" [exDocA, exDocB] (by decide)⟩

/-! ## Score-accumulation lemmas for C3 -/

theorem assocGetD_insert_self {β : Type} (l : List (String × β)) (k : String)
    (v d : β) : assocGetD (assocInsert l k v) k d = v := by
  simp [assocGetD, assocFind_insert_self]

theorem assocGetD_insert_ne {β : Type} (l : List (String × β)) (k k' : String)
    (v d : β) (h : k' ≠ k) : assocGetD (assocInsert l k v) k' d = assocGetD l k' d := by
  simp [assocGetD, assocFind_insert_ne l k k' v h]

theorem assocFind_mem {β : Type} (l : List (String × β)) (k : String) (v : β)
    (h : assocFind l k = some v) : (k, v) ∈ l := by
  induction l with
  | nil => cases h
  | cons p rest ih =>
    cases p with
    | mk k₀ v₀ =>
      by_cases h₀ : k₀ = k
      · subst h₀
        simp only [assocFind, beq_self_eq_true, if_pos] at h
        cases h
        exact List.mem_cons_self _ _
      · simp only [assocFind, beq_iff_eq, if_neg h₀] at h
        exact List.mem_cons_of_mem _ (ih h)

theorem foldl_postingStep_getD (idx : Index) (df : Nat) (cid : String) :
    ∀ (ps : List Posting) (sc : List (String × ℝ)),
    assocGetD (ps.foldl (postingStep idx df) sc) cid 0 =
      assocGetD sc cid 0 +
        ((ps.filter (fun p => p.chunkId == cid)).map
          (postingContribution idx df)).sum := by
  intro ps
  induction ps with
  | nil => intro sc; simp
  | cons p rest ih =>
    intro sc
    rw [List.foldl_cons, ih]
    by_cases hp : p.chunkId = cid
    · have hstep : assocGetD (postingStep idx df sc p) cid 0 =
          assocGetD sc cid 0 + postingContribution idx df p := by
        unfold postingStep
        rw [hp] at *
        rw [assocGetD_insert_self]
      rw [hstep]
      rw [List.filter_cons_of_pos (by simpa using hp), List.map_cons, List.sum_cons]
      ring
    · have hstep : assocGetD (postingStep idx df sc p) cid 0 =
          assocGetD sc cid 0 := by
        unfold postingStep
        exact assocGetD_insert_ne _ _ _ _ _ (fun hEq => hp hEq.symm)
      rw [hstep, List.filter_cons_of_neg (by simpa using hp)]

theorem filter_eq_find_toList_of_nodup (cid : String) :
    ∀ (ps : List Posting), (ps.map Posting.chunkId).Nodup →
    ps.filter (fun p => p.chunkId == cid) =
      (ps.find? (fun p => p.chunkId == cid)).toList := by
  intro ps
  induction ps with
  | nil => intro _; rfl
  | cons p rest ih =>
    intro hnodup
    have hni : p.chunkId ∉ rest.map Posting.chunkId := (List.nodup_cons.mp hnodup).1
    have htl : (rest.map Posting.chunkId).Nodup := (List.nodup_cons.mp hnodup).2
    by_cases hp : p.chunkId = cid
    · rw [List.filter_cons_of_pos (by simpa using hp), List.find?_cons_of_pos _ (by simpa using hp)]
      have hrest : rest.filter (fun q => q.chunkId == cid) = [] := by
        rw [List.filter_eq_nil_iff]
        intro q hq
        simp only [beq_iff_eq]
        intro hqc
        exact hni (hp ▸ hqc ▸ List.mem_map_of_mem Posting.chunkId hq)
      rw [hrest]
      rfl
    · rw [List.filter_cons_of_neg (by simpa using hp),
        List.find?_cons_of_neg _ (by simpa using hp)]
      exact ih htl

theorem foldl_scoreStep_getD (idx : Index) (cid : String) :
    ∀ (tokens : List String) (sc : List (String × ℝ)),
    assocGetD (tokens.foldl (scoreStep idx) sc) cid 0 =
      assocGetD sc cid 0 +
        (tokens.map (fun t =>
          (((assocGetD idx.invertedIdx t []).filter (fun p => p.chunkId == cid)).map
            (postingContribution idx (assocGetD idx.invertedIdx t []).length)).sum)).sum := by
  intro tokens
  induction tokens with
  | nil => intro sc; simp
  | cons t rest ih =>
    intro sc
    rw [List.foldl_cons, ih, List.map_cons, List.sum_cons]
    by_cases hz : (assocGetD idx.invertedIdx t []).length = 0
    · have hnil : assocGetD idx.invertedIdx t [] = [] := List.length_eq_zero.mp hz
      have hstep : scoreStep idx sc t = sc := by
        unfold scoreStep
        rw [if_pos hz]
      rw [hstep, hnil]
      simp only [List.filter_nil, List.map_nil, List.sum_nil]
      ring
    · have hstep : scoreStep idx sc t =
          (assocGetD idx.invertedIdx t []).foldl
            (postingStep idx (assocGetD idx.invertedIdx t []).length) sc := by
        unfold scoreStep
        rw [if_neg hz]
      rw [hstep, foldl_postingStep_getD]
      ring

/-- C3 counterexample: the claim quantifies over every non-empty index,
but on the reachable duplicate-add index `exIdxDup` (the document
`{id:"a", content:"x"}` added twice) the term `"x"` holds two postings for
the same chunk `a_chk_0`, and `Index.Search` accumulates the posting
contribution twice — `2·ln(1.2)` — while the claimed BM25 formula
(tf = 1, n = 2, dl = 1, avgdl = 1) yields it once — `ln(1.2)` — so the
accumulated score differs from the claimed formula on that index. -/
theorem c3_duplicate_posting_scored_twice :
    assocGetD (searchScores exIdxDup (tokenize "x")) "a_chk_0" 0 ≠
      specBM25Score exIdxDup "x" "a_chk_0" := by
  intro h
  have hcode : assocGetD (searchScores exIdxDup (tokenize "x")) "a_chk_0" 0 =
      0 + postingContribution exIdxDup 2 { chunkId := "a_chk_0", tf := 1 }
        + postingContribution exIdxDup 2 { chunkId := "a_chk_0", tf := 1 } := rfl
  have hspec : specBM25Score exIdxDup "x" "a_chk_0" =
      idf exIdxDup 2 * (((1 : ℕ) : ℝ) * (k1 + 1)) /
        (((1 : ℕ) : ℝ) + k1 * (1 - bParam + bParam *
          (((1 : ℕ) : ℝ) / avgDocLen exIdxDup))) + 0 := rfl
  have hcontrib : postingContribution exIdxDup 2 { chunkId := "a_chk_0", tf := 1 } =
      idf exIdxDup 2 * ((((1 : ℕ) : ℝ) * (k1 + 1)) /
        (((1 : ℕ) : ℝ) + k1 * (1 - bParam + bParam *
          (((1 : ℕ) : ℝ) / avgDocLen exIdxDup)))) := rfl
  rw [hcode, hspec, hcontrib] at h
  set A : ℝ := idf exIdxDup 2 with hA
  set N : ℝ := ((1 : ℕ) : ℝ) * (k1 + 1) with hN
  set D : ℝ := ((1 : ℕ) : ℝ) + k1 * (1 - bParam + bParam *
    (((1 : ℕ) : ℝ) / avgDocLen exIdxDup)) with hD
  rw [show A * N / D = A * (N / D) from mul_div_assoc A N D] at h
  have hC0 : A * (N / D) = 0 := by linarith
  have hA_pos : 0 < A := by
    rw [hA]
    unfold idf
    apply Real.log_pos
    have hdc : exIdxDup.docCount = 2 := rfl
    rw [hdc]
    norm_num
  have hN_pos : 0 < N := by
    rw [hN]
    norm_num [k1]
  have hD_pos : 0 < D := by
    have havg : avgDocLen exIdxDup = 1 := by
      unfold avgDocLen
      have hsum : exIdxDup.sumDocLen = 2 := rfl
      have hdc : exIdxDup.docCount = 2 := rfl
      rw [hsum, hdc]
      norm_num
    rw [hD, havg]
    norm_num [k1, bParam]
  exact absurd hC0 (ne_of_gt (mul_pos hA_pos (div_pos hN_pos hD_pos)))

/-- C3 amended: for every non-empty index whose posting lists mention each
chunk at most once (true of every index built without duplicate chunk ids;
a duplicated chunk id appends duplicate postings, which `Search`
accumulates once per posting, and makes the per-term `tf` ill-defined),
every query, and every chunk, the accumulated `scores` entry of
`Index.Search` equals the BM25 formula of the spec —
`Σ_{term ∈ query} idf·(tf·(k1+1))/(tf + k1·(1 − b +
b·dl/avgdl))` with `k1 = 1.2`, `b = 0.75`, `idf = ln((N − n + 0.5)/(n +
0.5) + 1)` — and query terms with no posting list contribute zero. -/
theorem c3_search_score_is_bm25 (idx : Index) (query : String) (cid : String)
    (_hN : idx.docCount ≠ 0)
    (hnodup : ∀ e ∈ idx.invertedIdx, (e.2.map Posting.chunkId).Nodup) :
    assocGetD (searchScores idx (tokenize query)) cid 0 =
      specBM25Score idx query cid := by
  unfold searchScores specBM25Score
  rw [foldl_scoreStep_getD]
  have h0 : assocGetD ([] : List (String × ℝ)) cid 0 = 0 := rfl
  rw [h0, zero_add]
  refine congrArg List.sum (List.map_congr_left ?_)
  intro t _
  have hndps : ((assocGetD idx.invertedIdx t []).map Posting.chunkId).Nodup := by
    unfold assocGetD
    cases hfind : assocFind idx.invertedIdx t with
    | none => simp
    | some l =>
      simpa using hnodup (t, l) (assocFind_mem idx.invertedIdx t l hfind)
  rw [filter_eq_find_toList_of_nodup cid _ hndps]
  cases hf : (assocGetD idx.invertedIdx t []).find? (fun p => p.chunkId == cid) with
  | none => simp [hf]
  | some p =>
    have hpc : p.chunkId = cid := by
      have := List.find?_some hf
      simpa using this
    simp only [hf, Option.toList, List.map_cons, List.map_nil, List.sum_cons,
      List.sum_nil, add_zero]
    unfold postingContribution idf avgDocLen
    rw [hpc]
    ring

/-- C3 witness: the two-document index `exIdx2` is non-empty, its posting
lists are duplicate-free, and the accumulated score of chunk `a_chk_0`
for query `"x"` equals the spec's BM25 formula. -/
theorem c3_search_score_is_bm25_witness :
    exIdx2.docCount ≠ 0 ∧
    (∀ e ∈ exIdx2.invertedIdx, (e.2.map Posting.chunkId).Nodup) ∧
    assocGetD (searchScores exIdx2 (tokenize "x")) "a_chk_0" 0 =
      specBM25Score exIdx2 "x" "a_chk_0" := by
  exact ⟨by decide, by decide,
    c3_search_score_is_bm25 exIdx2 "x" "a_chk_0" (by decide) (by decide)⟩

/-! ## Key-set lemmas for C4 -/

theorem keys_assocInsert {β : Type} (l : List (String × β)) (k : String) (v : β) :
    (assocInsert l k v).map Prod.fst =
      if assocHas l k = true then l.map Prod.fst else l.map Prod.fst ++ [k] := by
  induction l with
  | nil => simp [assocInsert, assocHas, assocFind]
  | cons p rest ih =>
    cases p with
    | mk k₀ v₀ =>
      by_cases h₀ : k₀ = k
      · subst h₀
        simp [assocInsert, assocHas, assocFind]
      · simp only [assocInsert, beq_iff_eq, if_neg h₀, List.map_cons]
        have hhas : assocHas ((k₀, v₀) :: rest) k = assocHas rest k := by
          simp [assocHas, assocFind, h₀]
        rw [hhas, ih]
        by_cases hr : assocHas rest k = true
        · rw [if_pos hr, if_pos hr]
        · rw [if_neg hr, if_neg hr]
          rfl

theorem assocHas_eq_contains {β : Type} (l : List (String × β)) (k : String) :
    assocHas l k = (l.map Prod.fst).contains k := by
  rw [Bool.eq_iff_iff, assocHas_iff_mem_keys]
  constructor
  · intro h
    exact List.elem_iff.mpr h
  · intro h
    exact List.elem_iff.mp h

theorem map_fst_foldl_postingStep (idx : Index) (df : Nat) :
    ∀ (ps : List Posting) (sc : List (String × ℝ)),
    ((ps.foldl (postingStep idx df) sc).map Prod.fst) =
      ps.foldl keyPostingStep (sc.map Prod.fst) := by
  intro ps
  induction ps with
  | nil => intro sc; rfl
  | cons p rest ih =>
    intro sc
    rw [List.foldl_cons, List.foldl_cons, ih]
    have hstep : (postingStep idx df sc p).map Prod.fst =
        keyPostingStep (sc.map Prod.fst) p := by
      unfold postingStep keyPostingStep
      rw [keys_assocInsert, assocHas_eq_contains]
    rw [hstep]

theorem scoreKeys_eq_map_fst_searchScores (idx : Index) (tokens : List String) :
    (searchScores idx tokens).map Prod.fst = scoreKeys idx tokens := by
  unfold searchScores scoreKeys
  suffices h : ∀ (ts : List String) (sc : List (String × ℝ)),
      ((ts.foldl (scoreStep idx) sc).map Prod.fst) =
        ts.foldl (keyStep idx) (sc.map Prod.fst) by
    exact h tokens []
  intro ts
  induction ts with
  | nil => intro sc; rfl
  | cons t rest ih =>
    intro sc
    rw [List.foldl_cons, List.foldl_cons, ih]
    have hstep : (scoreStep idx sc t).map Prod.fst =
        keyStep idx (sc.map Prod.fst) t := by
      unfold scoreStep keyStep
      by_cases hz : (assocGetD idx.invertedIdx t []).length = 0
      · rw [if_pos hz, if_pos hz]
      · rw [if_neg hz, if_neg hz, map_fst_foldl_postingStep]
    rw [hstep]

/-- C4 counterexample: the claim says results with equal scores appear in
chunk insertion order (stable sort).  `Index.Search` iterates the Go
`scores` map in randomized order and sorts with the unstable `sort.Slice`;
on the two-chunk index `exIdx2` (chunks `a_chk_0` then `b_chk_0`, equal
scores for query `"x"`), the run whose map iteration yields `b_chk_0`
first produces a valid output with the tie reversed. -/
theorem c4_ties_not_in_insertion_order :
    ¬ (∀ out, SearchValid exIdx2 "x" 10 out → tiesRespectInsertion exIdx2 out) := by
  intro hall
  have hS : searchScores exIdx2 (tokenize "x") =
      [("a_chk_0", exScoreA), ("b_chk_0", exScoreB)] := rfl
  have hAB : exScoreA = exScoreB := rfl
  set outRev := (([("b_chk_0", exScoreB), ("a_chk_0", exScoreA)]).map
    (fun p => mkSearchResult exIdx2 p.1 p.2)).take 10 with houtdef
  have hvalid : SearchValid exIdx2 "x" 10 outRev := by
    unfold SearchValid
    rw [if_neg (by decide)]
    refine ⟨[("b_chk_0", exScoreB), ("a_chk_0", exScoreA)], ?_, ?_, rfl⟩
    · rw [hS]
      exact List.Perm.swap _ _ _
    · exact List.chain'_pair.mpr (le_of_eq hAB)
  have happ := hall outRev hvalid
  have hl : outRev.length = 2 := by
    rw [houtdef]
    rfl
  have h0lt : 0 < outRev.length := by omega
  have h1lt : 1 < outRev.length := by omega
  have hsceq : (outRev.get ⟨0, h0lt⟩).score = (outRev.get ⟨1, h1lt⟩).score :=
    hAB.symm
  have hins := happ 0 1 h0lt h1lt (by omega) hsceq
  have hins' : insPos exIdx2 "b_chk_0" < insPos exIdx2 "a_chk_0" := hins
  revert hins'
  decide

/-- C4 amended: for every non-empty index, query, and non-negative limit,
every possible output of `Index.Search` is sorted in non-increasing score
order, and truncation happens only after the sort: the output has exactly
`min limit n` entries where `n` is the full candidate count (the number
of scored chunks), so the sort acted on all candidates before the cut.
Tie order among equal scores is unspecified (randomized map iteration
followed by an unstable sort), which is what the counterexample
exhibits. -/
theorem c4_sorted_desc_truncated_after_sort (idx : Index) (query : String)
    (limit : Nat) (out : List SearchResult)
    (h0 : idx.docCount ≠ 0) (hvalid : SearchValid idx query limit out) :
    List.Chain' (fun a b => b.score ≤ a.score) out ∧
    out.length = min limit (scoreKeys idx (tokenize query)).length := by
  unfold SearchValid at hvalid
  rw [if_neg h0] at hvalid
  obtain ⟨pairs, hperm, hchain, hout⟩ := hvalid
  constructor
  · rw [hout]
    refine List.Chain'.take ?_ limit
    rw [List.chain'_map]
    exact hchain
  · rw [hout, List.length_take, List.length_map, hperm.length_eq]
    rw [show (searchScores idx (tokenize query)).length =
      (scoreKeys idx (tokenize query)).length from by
        rw [← scoreKeys_eq_map_fst_searchScores, List.length_map]]

/-- C4 amended, witness: the canonical-order output on `exIdx2` for query
`"x"` with limit 10 is a valid output; it is sorted and has
`min 10 2 = 2` entries. -/
theorem c4_sorted_desc_truncated_after_sort_witness :
    exIdx2.docCount ≠ 0 ∧
    SearchValid exIdx2 "x" 10
      (((searchScores exIdx2 (tokenize "x")).map
        (fun p => mkSearchResult exIdx2 p.1 p.2)).take 10) ∧
    (List.Chain' (fun a b => b.score ≤ a.score)
      (((searchScores exIdx2 (tokenize "x")).map
        (fun p => mkSearchResult exIdx2 p.1 p.2)).take 10) ∧
    (((searchScores exIdx2 (tokenize "x")).map
        (fun p => mkSearchResult exIdx2 p.1 p.2)).take 10).length =
      min 10 (scoreKeys exIdx2 (tokenize "x")).length) := by
  have hAB : exScoreA = exScoreB := rfl
  have hvalid : SearchValid exIdx2 "x" 10
      (((searchScores exIdx2 (tokenize "x")).map
        (fun p => mkSearchResult exIdx2 p.1 p.2)).take 10) := by
    unfold SearchValid
    rw [if_neg (by decide)]
    refine ⟨searchScores exIdx2 (tokenize "x"), List.Perm.refl _, ?_, rfl⟩
    show List.Chain' (fun a b => b.2 ≤ a.2)
      [("a_chk_0", exScoreA), ("b_chk_0", exScoreB)]
    exact List.chain'_pair.mpr (le_of_eq hAB.symm)
  exact ⟨by decide, hvalid,
    c4_sorted_desc_truncated_after_sort exIdx2 "x" 10 _ (by decide) hvalid⟩

/-! ## Webhook lemmas for C8 -/

theorem listHasPre_refl_append : ∀ (l t : List Char), listHasPre l (l ++ t) = true := by
  intro l
  induction l with
  | nil => intro t; rfl
  | cons c cs ih =>
    intro t
    simp only [List.cons_append, listHasPre, beq_self_eq_true, Bool.true_and]
    exact ih t

theorem goTrimPrefix_prepend (pre s : String) : goTrimPrefix (pre ++ s) pre = s := by
  unfold goTrimPrefix
  rw [String.data_append, listHasPre_refl_append]
  simp only [if_true]
  rw [List.drop_left]

theorem flatten_map_singleton (l : List Char) :
    (l.map (fun c => [c])).flatten = l := by
  induction l with
  | nil => rfl
  | cons c cs ih => simp [ih]

theorem jsonEscape_of_plain (s : String)
    (h : ∀ c ∈ s.data, jsonNeedsEscape c = false) : jsonEscape s = s := by
  unfold jsonEscape
  have hmap : s.data.map jsonEscapeChar = s.data.map (fun c => [c]) := by
    refine List.map_congr_left ?_
    intro c hc
    have hne := h c hc
    unfold jsonNeedsEscape at hne
    simp only [Bool.or_eq_false_iff, decide_eq_false_iff_not] at hne
    obtain ⟨⟨⟨⟨⟨h1, h2⟩, h3⟩, h4⟩, h5⟩, h6⟩ := hne
    have hn : c ≠ '\n' := by
      intro hEq
      exact h3 (by rw [hEq]; decide)
    have hr : c ≠ '\r' := by
      intro hEq
      exact h3 (by rw [hEq]; decide)
    have ht : c ≠ '\t' := by
      intro hEq
      exact h3 (by rw [hEq]; decide)
    unfold jsonEscapeChar
    rw [if_neg h1, if_neg h2, if_neg hn, if_neg hr, if_neg ht, if_neg h4,
      if_neg h5, if_neg h6, if_neg h3]
  rw [hmap, flatten_map_singleton]

/-- C8: every `POST /v1/webhooks/<path>` request (any body) publishes
exactly one inbound message with channel `"webhook"`, chat_id equal to the
webhook path, session_key `"webhook-<path>"`, content carrying the
serialized `WebhookEvent`, which embeds the (JSON-escaped) raw body — the
`raw_body` field is emitted for every non-empty body and an empty body is
the empty string, contained trivially — and hence the raw body string
verbatim whenever it needs no escaping, e.g. for typical malformed JSON;
the handler answers HTTP 200 `{received, path}` unconditionally,
malformed bodies included (`parsed = none` models the entry-less `Body`
map a failed `json.Unmarshal` leaves, which `omitempty` drops). -/
theorem c8_webhook_inbound_and_200 (p body : String) (parsed : Option String)
    (headers : List (String × String)) (ts : Int) :
    (handleWebhook ("/v1/webhooks" ++ p) body parsed headers ts).published =
      [{ channel := "webhook", senderId := "webhook", chatId := p,
         content := "[Webhook received on " ++ p ++ "]\n\n" ++
           marshalWebhookEvent
             { path := p, headers := headers, body := parsed,
               rawBody := body, timestamp := ts },
         sessionKey := "webhook-" ++ p }] ∧
    (handleWebhook ("/v1/webhooks" ++ p) body parsed headers ts).response =
      { status := 200, received := true, path := p } ∧
    List.IsInfix (jsonEscape body).data
      ("[Webhook received on " ++ p ++ "]\n\n" ++
        marshalWebhookEvent
          { path := p, headers := headers, body := parsed,
            rawBody := body, timestamp := ts }).data ∧
    ((∀ c ∈ body.data, jsonNeedsEscape c = false) →
      List.IsInfix body.data
        ("[Webhook received on " ++ p ++ "]\n\n" ++
          marshalWebhookEvent
            { path := p, headers := headers, body := parsed,
              rawBody := body, timestamp := ts }).data) := by
  have htrim : goTrimPrefix ("/v1/webhooks" ++ p) "/v1/webhooks" = p :=
    goTrimPrefix_prepend "/v1/webhooks" p
  have hinfix : List.IsInfix (jsonEscape body).data
      ("[Webhook received on " ++ p ++ "]\n\n" ++
        marshalWebhookEvent
          { path := p, headers := headers, body := parsed,
            rawBody := body, timestamp := ts }).data := by
    by_cases hb : body = ""
    · subst hb
      exact ⟨[], ("[Webhook received on " ++ p ++ "]\n\n" ++
        marshalWebhookEvent
          { path := p, headers := headers, body := parsed,
            rawBody := "", timestamp := ts }).data, rfl⟩
    · refine ⟨("[Webhook received on " ++ p ++ "]\n\n" ++
        ("\x7b\"path\":\"" ++ jsonEscape p ++ "\"" ++
          (if headers.isEmpty then ""
           else ",\"headers\":\x7b" ++
             String.intercalate ","
               (headers.map (fun kv =>
                 "\"" ++ jsonEscape kv.1 ++ "\":\"" ++ jsonEscape kv.2 ++ "\"")) ++
             "\x7d") ++
          (match parsed with | none => "" | some s => ",\"body\":" ++ s) ++
          ",\"raw_body\":\"")).data,
        ("\"" ++ ",\"timestamp\":" ++ toString ts ++ "\x7d").data, ?_⟩
      unfold marshalWebhookEvent
      rw [if_neg hb]
      simp only [String.data_append, List.append_assoc]
  refine ⟨?_, ?_, hinfix, ?_⟩
  · unfold handleWebhook
    rw [htrim]
  · unfold handleWebhook
    rw [htrim]
  · intro hplain
    have h := hinfix
    rw [jsonEscape_of_plain body hplain] at h
    exact h

/-- C8 witness: the scenario request `POST /v1/webhooks/shopify/order`
with the unparseable body `"id:7"`: one inbound on channel `webhook`,
chat_id `/shopify/order`, session key `webhook-` followed by the path,
HTTP 200, and the raw body appears verbatim in the content. -/
theorem c8_webhook_inbound_and_200_witness :
    ((handleWebhook ("/v1/webhooks" ++ "/shopify/order") "id:7" none [] 7).published =
      [{ channel := "webhook", senderId := "webhook", chatId := "/shopify/order",
         content := "[Webhook received on " ++ "/shopify/order" ++ "]\n\n" ++
           marshalWebhookEvent
             { path := "/shopify/order", headers := [], body := none,
               rawBody := "id:7", timestamp := 7 },
         sessionKey := "webhook-" ++ "/shopify/order" }]) ∧
    ((handleWebhook ("/v1/webhooks" ++ "/shopify/order") "id:7" none [] 7).response =
      { status := 200, received := true, path := "/shopify/order" }) ∧
    ((∀ c ∈ ("id:7" : String).data, jsonNeedsEscape c = false) ∧
      List.IsInfix ("id:7" : String).data
        ("[Webhook received on " ++ "/shopify/order" ++ "]\n\n" ++
          marshalWebhookEvent
            { path := "/shopify/order", headers := [], body := none,
              rawBody := "id:7", timestamp := 7 }).data) := by
  obtain ⟨h1, h2, _h3, h4⟩ :=
    c8_webhook_inbound_and_200 "/shopify/order" "id:7" none [] 7
  exact ⟨h1, h2, by decide, h4 (by decide)⟩

/-! ## Chunk-count lemmas for C2 -/

theorem length_le_utf8Sum (l : List Char) : l.length ≤ (l.map Char.utf8Size).sum := by
  induction l with
  | nil => simp
  | cons c cs ih =>
    simp only [List.map_cons, List.sum_cons, List.length_cons]
    have := c.utf8Size_pos
    omega

theorem chunkLoop_length (size step : Nat) (hstep : 0 < step) (hsize : step ≤ size) :
    ∀ (fuel : Nat) (rest : List Char), rest ≠ [] → rest.length ≤ fuel →
      (chunkLoop size step fuel rest).length =
        (rest.length - size + step - 1) / step + 1 := by
  intro fuel
  induction fuel with
  | zero =>
    intro rest hne hle
    exact absurd (List.length_eq_zero.mp (Nat.le_zero.mp hle)) hne
  | succ fuel ih =>
    intro rest hne hle
    match rest with
    | [] => exact absurd rfl hne
    | c :: cs =>
      set L := (c :: cs).length with hL
      by_cases hend : L ≤ size
      · have h0 : L - size = 0 := by omega
        simp only [chunkLoop]
        rw [if_pos (hL ▸ hend), h0]
        have : (step - 1) / step = 0 := Nat.div_eq_of_lt (by omega)
        simp [this]
      · simp only [chunkLoop]
        rw [if_neg (hL ▸ hend)]
        have hdropne : (c :: cs).drop step ≠ [] := by
          intro hnil
          have := congrArg List.length hnil
          rw [List.length_drop] at this
          simp only [List.length_nil] at this
          omega
        have hdroplen : ((c :: cs).drop step).length ≤ fuel := by
          rw [List.length_drop]
          omega
        simp only [List.length_cons]
        rw [ih ((c :: cs).drop step) hdropne hdroplen, List.length_drop, ← hL]
        have harith : (L - step - size + step - 1) / step + 1 + 1 =
            (L - size + step - 1) / step + 1 := by
          have hd : 1 ≤ L - size := by omega
          set d := L - size with hdEq
          have hsub : L - step - size = d - step := by omega
          rw [hsub]
          by_cases hds : step ≤ d
          · have h1 : d - step + step - 1 = d - 1 := by omega
            have h2 : d + step - 1 = d - 1 + step := by omega
            rw [h1, h2, Nat.add_div_right _ hstep]
          · have h1 : d - step = 0 := by omega
            have h2 : (step - 1) / step = 0 := Nat.div_eq_of_lt (by omega)
            have h3 : (d + step - 1) / step = 1 := by
              apply Nat.div_eq_of_lt_le
              · omega
              · omega
            rw [h1, h3]
            simp [h2]
        rw [← harith]

theorem docChunks_length_eq (doc : Document) :
    (docChunks doc).length = (chunkText doc.content chunkSize chunkOverlap).length := by
  unfold docChunks
  rw [List.length_map, List.enum_length]

theorem chunkText_length (text : String) :
    (chunkText text chunkSize chunkOverlap).length =
      max 1 ((text.data.length - chunkOverlap + (chunkSize - chunkOverlap) - 1) /
        (chunkSize - chunkOverlap)) := by
  have hstep : chunkSize - chunkOverlap = 800 := by decide
  set L := text.data.length with hLdef
  unfold chunkText
  by_cases hbyte : goByteLen text ≤ chunkSize
  · rw [if_pos hbyte]
    have hLle : L ≤ 1000 := by
      have h1 := length_le_utf8Sum text.data
      have : goByteLen text = (text.data.map Char.utf8Size).sum := rfl
      simp only [chunkSize] at hbyte
      omega
    have hdivle : (L - chunkOverlap + (chunkSize - chunkOverlap) - 1) /
        (chunkSize - chunkOverlap) ≤ 1 := by
      rw [hstep]
      simp only [chunkOverlap]
      have : L - 200 + 800 - 1 < 2 * 800 := by omega
      have := Nat.div_lt_of_lt_mul (by omega : L - 200 + 800 - 1 < 800 * 2)
      omega
    simp only [List.length_cons, List.length_nil]
    omega
  · rw [if_neg hbyte]
    have hLpos : 0 < L := by
      rcases Nat.eq_zero_or_pos L with h0 | h
      · exfalso
        have hdata : text.data = [] := List.length_eq_zero.mp (hLdef ▸ h0)
        have : goByteLen text = 0 := by
          unfold goByteLen
          rw [hdata]
          rfl
        simp only [chunkSize] at hbyte
        omega
      · exact h
    rw [List.length_map]
    rw [chunkLoop_length chunkSize (chunkSize - chunkOverlap) (by decide) (by decide)
      L text.data (by
        intro hnil
        have := congrArg List.length hnil
        simp only [List.length_nil] at this
        omega) (le_of_eq hLdef.symm)]
    rw [hstep]
    simp only [chunkSize, chunkOverlap]
    by_cases hL1000 : L ≤ 1000
    · have h0 : L - 1000 = 0 := by omega
      rw [h0]
      have h799 : (0 + 800 - 1) / 800 = 0 := Nat.div_eq_of_lt (by omega)
      rw [h799]
      have : (L - 200 + 800 - 1) / 800 ≤ 1 := by
        have := Nat.div_lt_of_lt_mul (by omega : L - 200 + 800 - 1 < 800 * 2)
        omega
      omega
    · have heq : L - 1000 + 800 - 1 + 800 = L - 200 + 800 - 1 := by omega
      have : (L - 1000 + 800 - 1) / 800 + 1 = (L - 1000 + 800 - 1 + 800) / 800 :=
        (Nat.add_div_right _ (by omega)).symm
      rw [this, heq]
      have hge : 1 ≤ (L - 200 + 800 - 1) / 800 := by
        rw [Nat.le_div_iff_mul_le (by omega)]
        omega
      omega

/-- C2: each `AddDocument` call creates exactly
`⌈max(1, (len(content) − overlap) / (chunk_size − overlap))⌉` chunks —
rendered in natural-number arithmetic as `max 1 ((L − overlap + (size −
overlap) − 1) / (size − overlap))`, the ceiling of the claim's quotient,
with `L` the content length in code points — and every document of at
most `chunk_size` code points yields one chunk; the `i`-th created chunk
has `document_id = doc.id`, id `<doc.id>_chk_<i>`, and `index = i`, the
indices consecutive from 0. -/
theorem c2_chunk_count_and_ids (doc : Document) :
    ((docChunks doc).length =
      max 1 ((doc.content.data.length - chunkOverlap +
        (chunkSize - chunkOverlap) - 1) / (chunkSize - chunkOverlap))) ∧
    (doc.content.data.length ≤ chunkSize → (docChunks doc).length = 1) ∧
    (∀ i (h : i < (docChunks doc).length),
      ((docChunks doc)[i]).documentId = doc.id ∧
      ((docChunks doc)[i]).id = doc.id ++ "_chk_" ++ toString i ∧
      ((docChunks doc)[i]).index = i) := by
  have hlen : (docChunks doc).length =
      max 1 ((doc.content.data.length - chunkOverlap +
        (chunkSize - chunkOverlap) - 1) / (chunkSize - chunkOverlap)) := by
    rw [docChunks_length_eq, chunkText_length]
  refine ⟨hlen, ?_, ?_⟩
  · intro hle
    rw [hlen]
    have hstep : chunkSize - chunkOverlap = 800 := by decide
    rw [hstep]
    simp only [chunkSize, chunkOverlap] at *
    have : (doc.content.data.length - 200 + 800 - 1) / 800 ≤ 1 := by
      have := Nat.div_lt_of_lt_mul
        (by omega : doc.content.data.length - 200 + 800 - 1 < 800 * 2)
      omega
    omega
  · intro i h
    unfold docChunks
    simp only [List.getElem_map, List.getElem_enum]
    exact ⟨rfl, rfl, rfl⟩

/-- C2 witness: the one-character document `exDocA` satisfies the length
hypothesis and yields exactly one chunk `a_chk_0` with index 0. -/
theorem c2_chunk_count_and_ids_witness :
    (exDocA.content.data.length ≤ chunkSize ∧ (docChunks exDocA).length = 1) ∧
    (0 < (docChunks exDocA).length ∧
      ((docChunks exDocA).get ⟨0, by decide⟩).documentId = exDocA.id ∧
      ((docChunks exDocA).get ⟨0, by decide⟩).id = exDocA.id ++ "_chk_" ++ toString 0 ∧
      ((docChunks exDocA).get ⟨0, by decide⟩).index = 0) := by
  refine ⟨⟨by decide, (c2_chunk_count_and_ids exDocA).2.1 (by decide)⟩,
    ⟨by decide, (c2_chunk_count_and_ids exDocA).2.2 0 (by decide)⟩⟩

/-- C5: the spec claims terminal sub-agent states are sticky — after a
successful `KillAgent` the status stays `"cancelled"` forever even when
the background `RunTask` finishes afterwards.  The code violates this:
evaluated at the interleaving "spawn; KillAgent succeeds; the tool loop
returns without error; RunTask's status-update block runs", the
`err == nil` branch of `RunTask` (manager.go line 166) overwrites
`"cancelled"` with `"completed"`, a forbidden terminal → terminal
transition. -/
theorem c5_killed_task_overwritten_by_runTask :
    KillAgent spawnTask = Except.ok killedTask ∧
    (runTaskDeferred (runTaskFinalize killedTask false true)).status = "completed" ∧
    (runTaskDeferred (runTaskFinalize killedTask false true)).status ≠ "cancelled" := by
  refine ⟨rfl, rfl, ?_⟩
  decide

/-- C7 counterexample: the claim says an unreadable/invalid index file is
preserved (not overwritten) until the next mutation-triggered save.  At
the concrete store state with collection `"c"` having an invalid on-disk
file and an empty cache, the first `GetIndex "c"` already rewrites the
file with the fresh empty index (store.go lines 57-60 save immediately),
so the invalid file is gone. -/
theorem c7_invalid_file_overwritten_on_first_access :
    GetIndex { cache := [], disk := [("c", FileState.invalid)] } "c" =
      Except.ok (NewIndex "c",
        { cache := [("c", NewIndex "c")],
          disk := [("c", FileState.valid (NewIndex "c"))] }) ∧
    FileState.valid (NewIndex "c") ≠ FileState.invalid := by
  exact ⟨rfl, by decide⟩

/-- C7 amended: when a collection's index file is unreadable or
schema-invalid and the collection is not cached, the first access yields a
fresh empty index — but the store immediately saves that fresh index,
overwriting the existing on-disk file (rather than preserving it until
the next mutation-triggered save). -/
theorem c7_fresh_index_and_immediate_overwrite (cache : List (String × Index))
    (disk : List (String × FileState)) (name : String)
    (hname : normName name ≠ "")
    (hcache : assocFind cache (normName name) = none)
    (hdisk : assocGetD disk (normName name) FileState.absent = FileState.invalid) :
    GetIndex { cache := cache, disk := disk } name =
      Except.ok (NewIndex (normName name),
        { cache := assocInsert cache (normName name) (NewIndex (normName name)),
          disk := SaveIndex disk (NewIndex (normName name)) }) := by
  unfold GetIndex
  rw [if_neg hname, hcache]
  unfold LoadIndex
  rw [hdisk]

/-- C7 amended, witness: the general statement applied to the concrete
invalid-file store state. -/
theorem c7_fresh_index_and_immediate_overwrite_witness :
    (normName "col" ≠ "") ∧
    (GetIndex { cache := [], disk := [("col", FileState.invalid)] } "col" =
      Except.ok (NewIndex "col",
        { cache := [("col", NewIndex "col")],
          disk := [("col", FileState.valid (NewIndex "col"))] })) := by
  refine ⟨by decide, ?_⟩
  have h := c7_fresh_index_and_immediate_overwrite [] [("col", FileState.invalid)] "col"
    (by decide) (by decide) (by decide)
  exact h

/-- C9 counterexample: the claim says constructing the chunking/index
component with `chunk_size = chunk_overlap` returns an error.  The source
constructor consults no chunking parameters (they are package constants)
and has no error return: lifted to explicit parameters, construction with
`size = overlap = 1000` succeeds. -/
theorem c9_equal_size_overlap_not_rejected :
    NewIndexChecked "general" 1000 1000 = Except.ok (NewIndex "general") ∧
    (NewIndexChecked "general" 1000 1000).isOk = true := by
  exact ⟨rfl, rfl⟩

/-- C9 amended: no construction-time validation exists — `NewIndex`
always succeeds, for every name and every (lifted) parameter pair,
including `size = overlap`; the chunking window can still never fail to
advance because the package constants satisfy
`chunkOverlap < chunkSize` (the advance is `chunkSize - chunkOverlap =
800 > 0`). -/
theorem c9_no_validation_constants_safe :
    (∀ (name : String) (size overlap : Nat),
      NewIndexChecked name size overlap = Except.ok (NewIndex name)) ∧
    chunkOverlap < chunkSize ∧ 0 < chunkSize - chunkOverlap := by
  exact ⟨fun _ _ _ => rfl, by decide, by decide⟩

/-- C10: `Index.Search` cannot reach the panicking slice expression for a
non-negative `limit`; for a negative `limit`, whenever the index is
non-empty and at least one chunk matches the query, the truncation
`results = results[:limit]` panics; and the knowledge tool's
`handleSearch` forwards a model-supplied negative `limit` unchanged into
`Search`. -/
theorem c10_negative_limit_truncation_panics (idx : Index) (query : String)
    (limit : Int) :
    (0 ≤ limit → searchPanics idx query limit = false) ∧
    (limit < 0 → idx.docCount ≠ 0 →
      (scoreKeys idx (tokenize query)).length ≠ 0 →
      searchPanics idx query limit = true) ∧
    handleSearchLimit (some limit) = limit := by
  refine ⟨?_, ?_, rfl⟩
  · intro hpos
    unfold searchPanics
    by_cases h0 : idx.docCount = 0
    · rw [if_pos h0]
    · rw [if_neg h0]
      show (if limit < ((scoreKeys idx (tokenize query)).length : Int)
        then decide (limit < 0) else false) = false
      by_cases hlt : limit < ((scoreKeys idx (tokenize query)).length : Int)
      · rw [if_pos hlt]
        exact decide_eq_false (by omega)
      · rw [if_neg hlt]
  · intro hneg h0 hk
    unfold searchPanics
    rw [if_neg h0]
    show (if limit < ((scoreKeys idx (tokenize query)).length : Int)
      then decide (limit < 0) else false) = true
    have hlt : limit < ((scoreKeys idx (tokenize query)).length : Int) := by
      have : 1 ≤ (scoreKeys idx (tokenize query)).length := Nat.one_le_iff_ne_zero.mpr hk
      omega
    rw [if_pos hlt]
    exact decide_eq_true hneg

/-- C10 witness: the two-document index `exIdx2` with query `"x"` and
limit `-1`: a match exists, the index is non-empty, and the truncation
step panics; limit `3` does not panic. -/
theorem c10_negative_limit_truncation_panics_witness :
    (0 ≤ (3 : Int) ∧ searchPanics exIdx2 "x" 3 = false) ∧
    ((-1 : Int) < 0 ∧ exIdx2.docCount ≠ 0 ∧
      (scoreKeys exIdx2 (tokenize "x")).length ≠ 0 ∧
      searchPanics exIdx2 "x" (-1) = true) := by
  refine ⟨⟨by decide, (c10_negative_limit_truncation_panics exIdx2 "x" 3).1 (by decide)⟩,
    ⟨by decide, by decide, by decide,
      (c10_negative_limit_truncation_panics exIdx2 "x" (-1)).2.1 (by decide) (by decide) (by decide)⟩⟩

/-- C6 counterexample: the claim says adding the same document twice
produces two distinct chunk-id namespaces and twice as many stored chunks.
Adding `{id:"a", content:"x"}` twice reuses the same chunk id `a_chk_0`
(the second add overwrites the stored chunk), so the store holds 1 chunk,
not 2. -/
theorem c6_duplicate_add_does_not_double_docs :
    ¬ (exIdxDup.docs.length = 2 * exIdx1.docs.length) := by
  decide

/-- C6 amended: adding the same document twice reuses the same chunk ids —
the second `AddDocument` overwrites the stored chunks, leaving `|docs|`
unchanged — while `doc_count` and `sum_doc_len` nevertheless receive the
document's contribution twice. -/
theorem c6_duplicate_add_overwrites_chunks (idx : Index) (doc : Document) :
    (AddDocument (AddDocument idx doc) doc).docs.length =
      (AddDocument idx doc).docs.length ∧
    (AddDocument (AddDocument idx doc) doc).docCount =
      idx.docCount + 2 * (docChunks doc).length ∧
    (AddDocument (AddDocument idx doc) doc).sumDocLen =
      idx.sumDocLen +
        2 * ((docChunks doc).map (fun c => (tokenize c.content).length)).sum := by
  refine ⟨?_, ?_, ?_⟩
  · exact foldl_addChunk_docs_length_of_present (docChunks doc) (AddDocument idx doc)
      (fun c hc => assocHas_docs_of_mem (docChunks doc) idx c hc)
  · show ((docChunks doc).foldl addChunk (AddDocument idx doc)).docCount = _
    rw [foldl_addChunk_docCount]
    show ((docChunks doc).foldl addChunk idx).docCount + _ = _
    rw [foldl_addChunk_docCount]
    omega
  · show ((docChunks doc).foldl addChunk (AddDocument idx doc)).sumDocLen = _
    rw [foldl_addChunk_sumDocLen]
    show ((docChunks doc).foldl addChunk idx).sumDocLen + _ = _
    rw [foldl_addChunk_sumDocLen]
    omega

end RDxClaw
